import Mathlib

/-!
Verification of the sparse-subvector view subsystem
(`blaze/math/views/SparseSubvector.h`).

The backing sparse container (`CompressedVector`) is not part of the sources;
it is modelled from the spec as a "sorted sparse vector": a logical size plus
(index, value) pairs sorted strictly ascending by index, with lookup,
insertion, erasure and lower/upper-bound range queries.  Iterators of the
container are modelled as positions (`Nat`) into the entry list; the number of
stored entries is the container's end position.

The view operations themselves (`SparseSubvector`) are translated directly
from the source file.
-/

namespace Blaze

/-- Modelled from the spec: the backing sparse container (`CompressedVector`,
whose implementation is not among the sources).  `len` is the logical vector
size, `entries` the stored (index, value) pairs, kept sorted strictly
ascending by index. -/
structure SVec (α : Type) where
  len : Nat
  entries : List (Nat × α)
deriving DecidableEq

/-- Well-formedness of the backing container: entry indices strictly ascending
and below the logical size. -/
def SVec.WF {α : Type} (c : SVec α) : Prop :=
  List.Pairwise (fun a b : Nat × α => a.1 < b.1) c.entries ∧
    ∀ e ∈ c.entries, e.1 < c.len

instance {α : Type} (c : SVec α) : Decidable c.WF := by
  unfold SVec.WF
  infer_instance

/-- Modelled from the spec: position of the container's `lowerBound(i)` — the
first stored entry whose index is not less than `i` (the list length if there
is none, i.e. the container's end position). -/
def lbPos {α : Type} : List (Nat × α) → Nat → Nat
  | [], _ => 0
  | e :: es, i => if i ≤ e.1 then 0 else lbPos es i + 1

/-- Modelled from the spec: position of the container's `upperBound(i)` — the
first stored entry whose index is greater than `i`. -/
def ubPos {α : Type} : List (Nat × α) → Nat → Nat
  | [], _ => 0
  | e :: es, i => if i < e.1 then 0 else ubPos es i + 1

/-- Modelled from the spec: position of the container's `find(i)` — the
position of the stored entry with index `i`, or the end position if there is
none. -/
def findPos {α : Type} : List (Nat × α) → Nat → Nat
  | [], _ => 0
  | e :: es, i => if e.1 = i then 0 else findPos es i + 1

/-- Reading the container at a global index: the stored value there, or zero
(the default element) when no entry is stored. -/
def SVec.atIdx {α : Type} [Zero α] (c : SVec α) (g : Nat) : α :=
  ((c.entries.find? (fun e => e.1 == g)).map Prod.snd).getD 0

/-- The view type: a non-owning window `{ start, size }` over a backing
container (`SparseSubvector<VT,TF>`; the container reference is passed
explicitly to each operation). -/
structure Subvector where
  start : Nat
  size : Nat
deriving DecidableEq

/-- `begin()` of the view: `Iterator( vector_.lowerBound( start_ ), start_ )`;
we keep the underlying position. -/
def Subvector.beginPos {α : Type} (c : SVec α) (v : Subvector) : Nat :=
  lbPos c.entries v.start

/-- `end()` of the view: `Iterator( vector_.lowerBound( start_ + size_ ), start_ )`. -/
def Subvector.endPos {α : Type} (c : SVec α) (v : Subvector) : Nat :=
  lbPos c.entries (v.start + v.size)

/-- The sequence of (local index, value) elements produced by iterating the
view from `begin()` to `end()`: the container entries between the two
positions, each reporting index `pos_->index() - offset_`
(`SubvectorElement::index`). -/
def Subvector.toList {α : Type} (c : SVec α) (v : Subvector) : List (Nat × α) :=
  (((c.entries.drop (v.beginPos c)).take (v.endPos c - v.beginPos c)).map
    (fun e => (e.1 - v.start, e.2)))

/-! ### Position lemmas for the sorted entry list -/

theorem lbPos_le_length {α : Type} (l : List (Nat × α)) (i : Nat) :
    lbPos l i ≤ l.length := by
  induction l with
  | nil => simp [lbPos]
  | cons e es ih =>
    by_cases h : i ≤ e.1 <;> simp [lbPos, h, Nat.succ_le_succ ih]

theorem lbPos_mono {α : Type} (l : List (Nat × α)) {i j : Nat} (hij : i ≤ j) :
    lbPos l i ≤ lbPos l j := by
  induction l with
  | nil => simp [lbPos]
  | cons e es ih =>
    by_cases hj : j ≤ e.1
    · have hi : i ≤ e.1 := le_trans hij hj
      simp [lbPos, hi, hj]
    · by_cases hi : i ≤ e.1
      · simp [lbPos, hi]
      · simp [lbPos, hi, hj, Nat.succ_le_succ ih]

theorem mem_take_lbPos {α : Type} {l : List (Nat × α)} {i : Nat} {e : Nat × α}
    (he : e ∈ l.take (lbPos l i)) : e.1 < i := by
  induction l with
  | nil => simp [lbPos] at he
  | cons a as ih =>
    by_cases h : i ≤ a.1
    · simp [lbPos, h] at he
    · simp only [lbPos, h, if_false, List.take_succ_cons, List.mem_cons] at he
      rcases he with rfl | he
      · omega
      · exact ih he

theorem take_lbPos_eq_filter {α : Type} {l : List (Nat × α)}
    (hs : List.Pairwise (fun a b : Nat × α => a.1 < b.1) l) (i : Nat) :
    l.take (lbPos l i) = l.filter (fun e => decide (e.1 < i)) := by
  induction l with
  | nil => simp [lbPos]
  | cons a as ih =>
    rcases List.pairwise_cons.mp hs with ⟨ha, has⟩
    by_cases h : i ≤ a.1
    · have : ∀ e ∈ a :: as, ¬ e.1 < i := by
        intro e he
        rcases List.mem_cons.mp he with rfl | he
        · omega
        · have := ha e he; omega
      simp only [lbPos, h, if_true, List.take_zero]
      refine (List.filter_eq_nil_iff.mpr ?_).symm
      intro e he
      simpa using this e he
    · simp only [lbPos, h, if_false, List.take_succ_cons]
      have : a.1 < i := by omega
      simp [List.filter_cons, this, ih has]

theorem drop_lbPos_eq_filter {α : Type} {l : List (Nat × α)}
    (hs : List.Pairwise (fun a b : Nat × α => a.1 < b.1) l) (i : Nat) :
    l.drop (lbPos l i) = l.filter (fun e => decide (i ≤ e.1)) := by
  induction l with
  | nil => simp [lbPos]
  | cons a as ih =>
    rcases List.pairwise_cons.mp hs with ⟨ha, has⟩
    by_cases h : i ≤ a.1
    · have : ∀ e ∈ as, i ≤ e.1 := by
        intro e he
        have := ha e he; omega
      simp only [lbPos, h, if_true, List.drop_zero]
      have : as.filter (fun e => decide (i ≤ e.1)) = as := by
        refine List.filter_eq_self.mpr ?_
        intro e he; simpa using this e he
      simp [List.filter_cons, h, this]
    · have : ¬ i ≤ a.1 := h
      simp only [lbPos, h, if_false, List.drop_succ_cons]
      simp [List.filter_cons, this, ih has]

theorem lbPos_drop {α : Type} (l : List (Nat × α)) {s t : Nat} (hst : s ≤ t) :
    lbPos (l.drop (lbPos l s)) t = lbPos l t - lbPos l s := by
  induction l with
  | nil => simp [lbPos]
  | cons a as ih =>
    by_cases h : s ≤ a.1
    · simp [lbPos, h]
    · have ht : ¬ t ≤ a.1 := by omega
      simp [lbPos, h, ht, List.drop_succ_cons, ih]

theorem slice_eq_filter {α : Type} {l : List (Nat × α)}
    (hs : List.Pairwise (fun a b : Nat × α => a.1 < b.1) l) {s t : Nat} (hst : s ≤ t) :
    (l.drop (lbPos l s)).take (lbPos l t - lbPos l s)
      = l.filter (fun e => decide (s ≤ e.1 ∧ e.1 < t)) := by
  have hd : List.Pairwise (fun a b : Nat × α => a.1 < b.1) (l.drop (lbPos l s)) :=
    hs.sublist (List.drop_sublist _ _)
  rw [← lbPos_drop l hst, take_lbPos_eq_filter hd, drop_lbPos_eq_filter hs,
    List.filter_filter]
  refine List.filter_congr ?_
  intro e _
  simp [decide_eq_true_eq, Bool.and_comm]

/-- Part of the concrete scenario in the spec: a sparse container of size 10
with stored entries {(2,5.0), (5,-1.0), (7,3.0)} (integral values here). -/
def ex10 : SVec Int := ⟨10, [(2, 5), (5, -1), (7, 3)]⟩

/-- The same concrete scenario with rational (floating-point-like) values. -/
def exQ : SVec ℚ := ⟨10, [(2, 5), (5, -1), (7, 3)]⟩

theorem toList_eq {α : Type} (c : SVec α) (hc : c.WF) (v : Subvector) :
    Subvector.toList c v
      = (c.entries.filter
          (fun e => decide (v.start ≤ e.1 ∧ e.1 < v.start + v.size))).map
          (fun e => (e.1 - v.start, e.2)) := by
  unfold Subvector.toList Subvector.beginPos Subvector.endPos
  rw [slice_eq_filter hc.1 (Nat.le_add_right _ _)]

theorem toList_sorted {α : Type} (c : SVec α) (hc : c.WF) (v : Subvector) :
    List.Pairwise (fun a b : Nat × α => a.1 < b.1) (Subvector.toList c v) := by
  rw [toList_eq c hc v]
  have hpf : List.Pairwise (fun a b : Nat × α => a.1 < b.1)
      (c.entries.filter (fun e => decide (v.start ≤ e.1 ∧ e.1 < v.start + v.size))) :=
    hc.1.sublist (List.filter_sublist _)
  rw [List.pairwise_map]
  refine hpf.imp_of_mem ?_
  intro a b ha _ hab
  have ha' : v.start ≤ a.1 := by
    have := List.of_mem_filter ha
    simp only [decide_eq_true_eq] at this
    exact this.1
  omega

/-- C1: iterating a view from `begin()` to `end()` enumerates exactly the
stored entries of the backing container whose global index `g` satisfies
`start ≤ g < start + size`, in strictly ascending local-index order, each
element reporting local index `g - start`. -/
theorem C1_view_iteration {α : Type} (c : SVec α) (hc : c.WF) (v : Subvector) :
    Subvector.toList c v
      = (c.entries.filter
          (fun e => decide (v.start ≤ e.1 ∧ e.1 < v.start + v.size))).map
          (fun e => (e.1 - v.start, e.2))
    ∧ List.Pairwise (fun a b : Nat × α => a.1 < b.1) (Subvector.toList c v) :=
  ⟨toList_eq c hc v, toList_sorted c hc v⟩

/-- C1 witness: the spec's concrete container, view with start 3 and size 4. -/
theorem C1_view_iteration_witness :
    ex10.WF ∧
      (Subvector.toList ex10 ⟨3, 4⟩
          = (ex10.entries.filter
              (fun e => decide ((3 : Nat) ≤ e.1 ∧ e.1 < 3 + 4))).map
              (fun e => (e.1 - 3, e.2))
        ∧ List.Pairwise (fun a b : Nat × Int => a.1 < b.1)
            (Subvector.toList ex10 ⟨3, 4⟩)) :=
  ⟨by decide, C1_view_iteration ex10 (by decide) ⟨3, 4⟩⟩

/-! ### Construction, reset, reserve/capacity, in-place scalar updates -/

/-- The `SparseSubvector` constructor: stores the reference and the two
indices and throws `std::invalid_argument` when `n == 0UL` or
`start + n > vector.size()`; the container is not touched (it is returned
unchanged alongside the view).  `start` and `n` are `size_t` values, so the
sum `start + n` is computed modulo `2^64`. -/
def subCtor {α : Type} (c : SVec α) (start n : Nat) :
    Except String (Subvector × SVec α) :=
  if n = 0 ∨ (start + n) % 2 ^ 64 > c.len then
    Except.error "Invalid subvector specification"
  else Except.ok (⟨start, n⟩, c)

/-- `reset()`:
`vector_.erase( vector_.lowerBound( start_ ), vector_.lowerBound( start_ + size_ ) )`;
the container's range erase removes the stored entries between the two
positions. -/
def Subvector.reset {α : Type} (c : SVec α) (v : Subvector) : SVec α :=
  ⟨c.len, c.entries.take (v.beginPos c) ++ c.entries.drop (v.endPos c)⟩

/-- `reserve( n )`: the body is just `return;`. -/
def Subvector.reserveV {α : Type} (c : SVec α) (_v : Subvector) (_n : Nat) : SVec α :=
  c

/-- `capacity()`: returns the stored `size_`, whatever the container holds. -/
def Subvector.capacity {α : Type} (_c : SVec α) (v : Subvector) : Nat :=
  v.size

/-- The shared in-place update loop
`for( Iterator element=begin(); element!=end(); ++element )
element->value() ⊙= s` of `operator*=`, `scale` and `operator/=`: every
stored value the view's iteration reaches is updated by `f`, nothing else
changes. -/
def Subvector.mapValues {α : Type} (c : SVec α) (v : Subvector) (f : α → α) : SVec α :=
  ⟨c.len,
    c.entries.take (v.beginPos c)
      ++ ((c.entries.drop (v.beginPos c)).take (v.endPos c - v.beginPos c)).map
          (fun e => (e.1, f e.2))
      ++ c.entries.drop (v.endPos c)⟩

/-- `operator*=( Other rhs )` for a numeric scalar: in-place multiplication of
each stored value. -/
def Subvector.scalarMulAssign {α : Type} [Mul α] (c : SVec α) (v : Subvector) (k : α) :
    SVec α :=
  Subvector.mapValues c v (· * k)

/-- `operator/=( Other rhs )`, floating-point branch: the reciprocal
`tmp( Tmp(1)/static_cast<Tmp>( rhs ) )` is computed once and each stored
value is multiplied by it (values modelled as rationals). -/
def Subvector.scalarDivAssignFloat (c : SVec ℚ) (v : Subvector) (k : ℚ) : SVec ℚ :=
  Subvector.mapValues c v (· * (1 / k))

/-- `operator/=( Other rhs )`, integral branch: each stored value is divided
in place by `rhs`; C++ integer division truncates toward zero, which is
`Int.div`. -/
def Subvector.scalarDivAssignInt (c : SVec Int) (v : Subvector) (k : Int) : SVec Int :=
  Subvector.mapValues c v (fun a => Int.tdiv a k)

theorem entries_decomp {α : Type} (l : List (Nat × α)) {s t : Nat} (hst : s ≤ t) :
    l = l.take (lbPos l s)
          ++ ((l.drop (lbPos l s)).take (lbPos l t - lbPos l s)
          ++ l.drop (lbPos l t)) := by
  have h1 : lbPos l s ≤ lbPos l t := lbPos_mono l hst
  conv_lhs => rw [← List.take_append_drop (lbPos l s) l]
  congr 1
  conv_lhs =>
    rw [← List.take_append_drop (lbPos l t - lbPos l s) (l.drop (lbPos l s))]
  congr 1
  rw [List.drop_drop]
  congr 1
  omega

theorem mem_drop_lbPos {α : Type} {l : List (Nat × α)}
    (hs : List.Pairwise (fun a b : Nat × α => a.1 < b.1) l) {i : Nat} {e : Nat × α}
    (he : e ∈ l.drop (lbPos l i)) : i ≤ e.1 := by
  rw [drop_lbPos_eq_filter hs] at he
  have := List.of_mem_filter he
  simpa using this

theorem mem_slice_range {α : Type} {l : List (Nat × α)}
    (hs : List.Pairwise (fun a b : Nat × α => a.1 < b.1) l) {s t : Nat} (hst : s ≤ t)
    {e : Nat × α} (he : e ∈ (l.drop (lbPos l s)).take (lbPos l t - lbPos l s)) :
    s ≤ e.1 ∧ e.1 < t := by
  rw [slice_eq_filter hs hst] at he
  have := List.of_mem_filter he
  simpa using this

theorem mapValues_entries {α : Type} (c : SVec α) (hc : c.WF) (v : Subvector)
    (f : α → α) :
    (Subvector.mapValues c v f).entries
      = c.entries.map
          (fun e =>
            if v.start ≤ e.1 ∧ e.1 < v.start + v.size then (e.1, f e.2) else e) := by
  have hst : v.start ≤ v.start + v.size := Nat.le_add_right _ _
  have hl : (Subvector.mapValues c v f).entries
      = (c.entries.take (lbPos c.entries v.start)
          ++ ((c.entries.drop (lbPos c.entries v.start)).take
              (lbPos c.entries (v.start + v.size) - lbPos c.entries v.start)).map
            (fun e => (e.1, f e.2)))
          ++ c.entries.drop (lbPos c.entries (v.start + v.size)) := rfl
  rw [hl, List.append_assoc]
  conv_rhs => rw [entries_decomp c.entries hst]
  rw [List.map_append, List.map_append]
  congr 1
  · refine ((List.map_congr_left ?_).trans (List.map_id _)).symm
    intro e he
    have hlt : e.1 < v.start := mem_take_lbPos he
    simp only [id_eq]
    rw [if_neg (by omega)]
  congr 1
  · refine (List.map_congr_left ?_).symm
    intro e he
    have h := mem_slice_range hc.1 hst he
    rw [if_pos h]
  · refine ((List.map_congr_left ?_).trans (List.map_id _)).symm
    intro e he
    have hge : v.start + v.size ≤ e.1 := mem_drop_lbPos hc.1 he
    simp only [id_eq]
    rw [if_neg (by omega)]

/-- C6 counterexample: the claim's iff is false on wrapping inputs.  With
`start = 2^64 - 1` and `n = 1` on the size-10 container, `n ≠ 0` and the
mathematical sum `start + n = 2^64` exceeds the container size, so the claim
demands an invalid-range error — yet the `size_t` sum wraps to `0`, the check
at line 739 passes, and the constructor succeeds. -/
theorem C6_ctor_wrap_counterexample :
    (1 : Nat) ≠ 0 ∧ 2 ^ 64 - 1 + 1 > ex10.len
      ∧ subCtor ex10 (2 ^ 64 - 1) 1
          = Except.ok (⟨2 ^ 64 - 1, 1⟩, ex10) := by
  refine ⟨by norm_num, by decide, ?_⟩
  rfl

/-- C6 (amended): construction fails with the invalid-range error iff `n = 0`
or the `size_t` sum `(start + n) mod 2^64` exceeds the container size; on
success the view's `size()` equals `n` and the container comes back
unmodified. -/
theorem C6_ctor_range_check_wrap {α : Type} (c : SVec α) (start n : Nat) :
    (subCtor c start n = Except.error "Invalid subvector specification"
        ↔ (n = 0 ∨ (start + n) % 2 ^ 64 > c.len))
      ∧ ∀ v c2, subCtor c start n = Except.ok (v, c2) → v.size = n ∧ c2 = c := by
  unfold subCtor
  by_cases h : n = 0 ∨ (start + n) % 2 ^ 64 > c.len
  · rw [if_pos h]
    constructor
    · constructor
      · intro _; exact h
      · intro _; rfl
    · intro v c2 he
      cases he
  · rw [if_neg h]
    constructor
    · constructor
      · intro he; cases he
      · intro hcond; exact absurd hcond h
    · intro v c2 he
      cases he
      exact ⟨rfl, rfl⟩

/-- C6 witness: the spec's concrete failing construction, `start = 8`,
`length = 5` on a size-10 container (no wraparound: `13 mod 2^64 = 13 > 10`). -/
theorem C6_ctor_range_check_wrap_witness :
    subCtor ex10 8 5 = Except.error "Invalid subvector specification" :=
  (C6_ctor_range_check_wrap ex10 8 5).1.mpr (by decide)

/-- C7: `reset()` erases exactly the stored entries with global index in
`[start, start + size)`: the surviving entries are those outside the range
(unchanged, in order), and iterating the view afterwards yields nothing. -/
theorem C7_reset_frame {α : Type} (c : SVec α) (hc : c.WF) (v : Subvector) :
    (Subvector.reset c v).entries
        = c.entries.filter
            (fun e => decide (e.1 < v.start ∨ v.start + v.size ≤ e.1))
      ∧ Subvector.toList (Subvector.reset c v) v = [] := by
  have hst : v.start ≤ v.start + v.size := Nat.le_add_right _ _
  have hmain : (Subvector.reset c v).entries
      = c.entries.filter
          (fun e => decide (e.1 < v.start ∨ v.start + v.size ≤ e.1)) := by
    show c.entries.take (v.beginPos c) ++ c.entries.drop (v.endPos c) = _
    unfold Subvector.beginPos Subvector.endPos
    conv_rhs => rw [entries_decomp c.entries hst]
    rw [List.filter_append, List.filter_append]
    congr 1
    · refine (List.filter_eq_self.mpr ?_).symm
      intro e he
      have : e.1 < v.start := mem_take_lbPos he
      simp [this]
    · rw [List.filter_eq_nil_iff.mpr, List.nil_append]
      · refine (List.filter_eq_self.mpr ?_).symm
        intro e he
        have : v.start + v.size ≤ e.1 := mem_drop_lbPos hc.1 he
        simp [this]
      · intro e he
        have := mem_slice_range hc.1 hst he
        simp
        omega
  refine ⟨hmain, ?_⟩
  have hs2 : List.Pairwise (fun a b : Nat × α => a.1 < b.1)
      (Subvector.reset c v).entries := by
    rw [hmain]
    exact hc.1.sublist (List.filter_sublist _)
  unfold Subvector.toList Subvector.beginPos Subvector.endPos
  rw [slice_eq_filter hs2 hst, hmain, List.filter_filter]
  rw [List.filter_eq_nil_iff.mpr, List.map_nil]
  intro e _
  simp only [Bool.and_eq_true, decide_eq_true_eq]
  omega

/-- C7 witness: resetting the view (3,4) on the concrete container erases the
entry at global index 5 and keeps (2,5) and (7,3). -/
theorem C7_reset_frame_witness :
    ex10.WF ∧
      ((Subvector.reset ex10 ⟨3, 4⟩).entries
          = ex10.entries.filter
              (fun e => decide (e.1 < 3 ∨ 3 + 4 ≤ e.1))
        ∧ Subvector.toList (Subvector.reset ex10 ⟨3, 4⟩) ⟨3, 4⟩ = []) :=
  ⟨by decide, C7_reset_frame ex10 (by decide) ⟨3, 4⟩⟩

/-- C10: the public `reserve( n )` changes nothing for any `n`, and
`capacity()` always returns the view's size, whatever the container holds. -/
theorem C10_reserve_capacity {α : Type} (c : SVec α) (v : Subvector) (n : Nat) :
    Subvector.reserveV c v n = c ∧ Subvector.capacity c v = v.size :=
  ⟨rfl, rfl⟩

/-- C8: scalar `*=` multiplies in place the value of every stored entry in
the view's range and inserts no new entries: each entry with global index in
`[start, start + size)` has its value multiplied by `s`, every other entry is
unchanged, and the list of stored indices is identical before and after. -/
theorem C8_scalar_mul_in_place {α : Type} [Mul α] (c : SVec α) (hc : c.WF)
    (v : Subvector) (k : α) :
    (Subvector.scalarMulAssign c v k).entries
        = c.entries.map
            (fun e =>
              if v.start ≤ e.1 ∧ e.1 < v.start + v.size then (e.1, e.2 * k) else e)
      ∧ (Subvector.scalarMulAssign c v k).entries.map Prod.fst
          = c.entries.map Prod.fst := by
  have hmain := mapValues_entries c hc v (· * k)
  refine ⟨hmain, ?_⟩
  rw [show Subvector.scalarMulAssign c v k = Subvector.mapValues c v (· * k) from rfl,
    hmain, List.map_map]
  refine List.map_congr_left ?_
  intro e _
  by_cases h : v.start ≤ e.1 ∧ e.1 < v.start + v.size <;>
    simp [Function.comp, h]

/-- C8 witness: the concrete container, view (3,4), scalar 7. -/
theorem C8_scalar_mul_in_place_witness :
    ex10.WF ∧
      ((Subvector.scalarMulAssign ex10 ⟨3, 4⟩ 7).entries
          = ex10.entries.map
              (fun e =>
                if (3 : Nat) ≤ e.1 ∧ e.1 < 3 + 4 then (e.1, e.2 * 7) else e)
        ∧ (Subvector.scalarMulAssign ex10 ⟨3, 4⟩ 7).entries.map Prod.fst
            = ex10.entries.map Prod.fst) :=
  ⟨by decide, C8_scalar_mul_in_place ex10 (by decide) ⟨3, 4⟩ 7⟩

/-- C9: scalar `/=` updates each stored entry of the view's range in place;
with a floating-point result type it multiplies by the reciprocal `1/s`
(which for nonzero `s` computes exactly the division), with an integral
result type it divides each value directly, truncating toward zero
(`Int.tdiv`).  Neither branch inserts or removes entries. -/
theorem C9_scalar_div_branches (c : SVec ℚ) (hc : c.WF) (ci : SVec Int)
    (hci : ci.WF) (v : Subvector) (k : ℚ) (_hk : k ≠ 0) (ki : Int) :
    (Subvector.scalarDivAssignFloat c v k).entries
        = c.entries.map
            (fun e =>
              if v.start ≤ e.1 ∧ e.1 < v.start + v.size then (e.1, e.2 / k) else e)
      ∧ (Subvector.scalarDivAssignInt ci v ki).entries
          = ci.entries.map
              (fun e =>
                if v.start ≤ e.1 ∧ e.1 < v.start + v.size then (e.1, e.2.tdiv ki)
                else e)
      ∧ (Subvector.scalarDivAssignFloat c v k).entries.map Prod.fst
          = c.entries.map Prod.fst
      ∧ (Subvector.scalarDivAssignInt ci v ki).entries.map Prod.fst
          = ci.entries.map Prod.fst := by
  have hq := mapValues_entries c hc v (· * (1 / k))
  have hz := mapValues_entries ci hci v (fun a => Int.tdiv a ki)
  have hqmain : (Subvector.scalarDivAssignFloat c v k).entries
      = c.entries.map
          (fun e =>
            if v.start ≤ e.1 ∧ e.1 < v.start + v.size then (e.1, e.2 / k) else e) := by
    rw [show Subvector.scalarDivAssignFloat c v k
        = Subvector.mapValues c v (· * (1 / k)) from rfl, hq]
    refine List.map_congr_left ?_
    intro e _
    by_cases h : v.start ≤ e.1 ∧ e.1 < v.start + v.size
    · rw [if_pos h, if_pos h, mul_one_div]
    · rw [if_neg h, if_neg h]
  refine ⟨hqmain, hz, ?_, ?_⟩
  · rw [hqmain, List.map_map]
    refine List.map_congr_left ?_
    intro e _
    by_cases h : v.start ≤ e.1 ∧ e.1 < v.start + v.size <;>
      simp [Function.comp, h]
  · rw [show Subvector.scalarDivAssignInt ci v ki
        = Subvector.mapValues ci v (fun a => Int.tdiv a ki) from rfl, hz,
      List.map_map]
    refine List.map_congr_left ?_
    intro e _
    by_cases h : v.start ≤ e.1 ∧ e.1 < v.start + v.size <;>
      simp [Function.comp, h]

/-- C9 witness: rational container (entries scaled by 1) divided by 2, and the
integral container divided by 2 with truncation (-1 / 2 ↦ 0). -/
theorem C9_scalar_div_branches_witness :
    exQ.WF ∧ ex10.WF ∧ (2 : ℚ) ≠ 0 ∧
      ((Subvector.scalarDivAssignFloat exQ ⟨3, 4⟩ 2).entries
          = exQ.entries.map
              (fun e =>
                if (3 : Nat) ≤ e.1 ∧ e.1 < 3 + 4 then (e.1, e.2 / 2) else e)
        ∧ (Subvector.scalarDivAssignInt ex10 ⟨3, 4⟩ 2).entries
            = ex10.entries.map
                (fun e =>
                  if (3 : Nat) ≤ e.1 ∧ e.1 < 3 + 4 then (e.1, e.2.tdiv 2) else e)
        ∧ (Subvector.scalarDivAssignFloat exQ ⟨3, 4⟩ 2).entries.map Prod.fst
            = exQ.entries.map Prod.fst
        ∧ (Subvector.scalarDivAssignInt ex10 ⟨3, 4⟩ 2).entries.map Prod.fst
            = ex10.entries.map Prod.fst) :=
  ⟨by decide, by decide, by norm_num,
    C9_scalar_div_branches exQ (by decide) ex10 (by decide) ⟨3, 4⟩ 2 (by norm_num) 2⟩

/-! ### Lookup functions (`find`, `lowerBound`, `upperBound`) -/

/-- `find( index )` of the view: `pos( vector_.find( start_ + index ) )`;
returns `Iterator( pos, start_ )` when `pos != vector_.end()` and the view's
`end()` otherwise. -/
def Subvector.findV {α : Type} (c : SVec α) (v : Subvector) (i : Nat) : Nat :=
  let pos := findPos c.entries (v.start + i)
  if pos ≠ c.entries.length then pos else v.endPos c

/-- `lowerBound( index )` of the view:
`Iterator( vector_.lowerBound( start_ + index ), start_ )`. -/
def Subvector.lowerBoundV {α : Type} (c : SVec α) (v : Subvector) (i : Nat) : Nat :=
  lbPos c.entries (v.start + i)

/-- `upperBound( index )` of the view:
`Iterator( vector_.upperBound( start_ + index ), start_ )`. -/
def Subvector.upperBoundV {α : Type} (c : SVec α) (v : Subvector) (i : Nat) : Nat :=
  ubPos c.entries (v.start + i)

/-- A container position lies outside the view: it is the container's end
position, or the entry there has global index at least `start + size`. -/
def landsOutside {α : Type} (c : SVec α) (v : Subvector) (p : Nat) : Prop :=
  p = c.entries.length
    ∨ ∃ e, c.entries[p]? = some e ∧ v.start + v.size ≤ e.1

theorem findPos_eq_length_of_not_mem {α : Type} {l : List (Nat × α)} {g : Nat}
    (h : ∀ e ∈ l, e.1 ≠ g) : findPos l g = l.length := by
  induction l with
  | nil => rfl
  | cons a as ih =>
    have ha : a.1 ≠ g := h a (List.mem_cons_self a as)
    simp only [findPos, ha, if_false, List.length_cons]
    exact congrArg (· + 1) (ih fun e he => h e (List.mem_cons_of_mem a he))

theorem findPos_getElem {α : Type} {l : List (Nat × α)} {g : Nat} {e : Nat × α}
    (h : l[findPos l g]? = some e) : e.1 = g := by
  induction l with
  | nil => simp [findPos] at h
  | cons a as ih =>
    by_cases ha : a.1 = g
    · rw [show findPos (a :: as) g = 0 from by simp [findPos, ha]] at h
      simp only [List.getElem?_cons_zero, Option.some.injEq] at h
      subst h
      exact ha
    · have hf : findPos (a :: as) g = findPos as g + 1 := by simp [findPos, ha]
      rw [hf, List.getElem?_cons_succ] at h
      exact ih h

theorem lbPos_collapse {α : Type} {l : List (Nat × α)}
    (hs : List.Pairwise (fun a b : Nat × α => a.1 < b.1) l) {i j : Nat} (hij : i ≤ j)
    (hout : lbPos l i = l.length
      ∨ ∃ e, l[lbPos l i]? = some e ∧ j ≤ e.1) :
    lbPos l i = lbPos l j := by
  induction l with
  | nil => rfl
  | cons a as ih =>
    rcases List.pairwise_cons.mp hs with ⟨_, has⟩
    by_cases hia : i ≤ a.1
    · rcases hout with h0 | ⟨e, he, hj⟩
      · simp [lbPos, hia] at h0
      · rw [show lbPos (a :: as) i = 0 from by simp [lbPos, hia]] at he
        simp only [List.getElem?_cons_zero, Option.some.injEq] at he
        subst he
        simp [lbPos, hia, hj]
    · have hja : ¬ j ≤ a.1 := by omega
      simp only [lbPos, hia, hja, if_false]
      refine congrArg (· + 1) (ih has ?_)
      rcases hout with h0 | ⟨e, he, hj⟩
      · left
        simpa [lbPos, hia] using h0
      · right
        refine ⟨e, ?_, hj⟩
        rw [show lbPos (a :: as) i = lbPos as i + 1 from by simp [lbPos, hia],
          List.getElem?_cons_succ] at he
        exact he

theorem ubPos_collapse {α : Type} {l : List (Nat × α)}
    (hs : List.Pairwise (fun a b : Nat × α => a.1 < b.1) l) {i j : Nat} (hij : i < j)
    (hout : ubPos l i = l.length
      ∨ ∃ e, l[ubPos l i]? = some e ∧ j ≤ e.1) :
    ubPos l i = lbPos l j := by
  induction l with
  | nil => rfl
  | cons a as ih =>
    rcases List.pairwise_cons.mp hs with ⟨_, has⟩
    by_cases hia : i < a.1
    · rcases hout with h0 | ⟨e, he, hj⟩
      · simp [ubPos, hia] at h0
      · rw [show ubPos (a :: as) i = 0 from by simp [ubPos, hia]] at he
        simp only [List.getElem?_cons_zero, Option.some.injEq] at he
        subst he
        simp [ubPos, lbPos, hia, hj]
    · have hja : ¬ j ≤ a.1 := by omega
      simp only [ubPos, lbPos, hia, hja, if_false]
      refine congrArg (· + 1) (ih has ?_)
      rcases hout with h0 | ⟨e, he, hj⟩
      · left
        simpa [ubPos, hia] using h0
      · right
        refine ⟨e, ?_, hj⟩
        rw [show ubPos (a :: as) i = ubPos as i + 1 from by simp [ubPos, hia],
          List.getElem?_cons_succ] at he
        exact he

/-- C5: the lookups delegate to the container's search at `start + i`; `find`
maps a container-end result to the view's `end()` and otherwise lands exactly
on the entry with global index `start + i` (inside the view); a `lowerBound`
or `upperBound` result that is the container's end or lands at a global index
outside the view (in particular at `start + size`) coincides with the view's
`end()` position. -/
theorem C5_lookup_delegation_clamp {α : Type} (c : SVec α) (hc : c.WF)
    (v : Subvector) (i : Nat) (hi : i < v.size) :
    (Subvector.lowerBoundV c v i = lbPos c.entries (v.start + i)
      ∧ Subvector.upperBoundV c v i = ubPos c.entries (v.start + i))
    ∧ ((∀ e ∈ c.entries, e.1 ≠ v.start + i) → Subvector.findV c v i = v.endPos c)
    ∧ (∀ e, c.entries[findPos c.entries (v.start + i)]? = some e →
        Subvector.findV c v i = findPos c.entries (v.start + i)
          ∧ e.1 = v.start + i
          ∧ v.start ≤ e.1 ∧ e.1 < v.start + v.size)
    ∧ (landsOutside c v (Subvector.lowerBoundV c v i) →
        Subvector.lowerBoundV c v i = v.endPos c)
    ∧ (landsOutside c v (Subvector.upperBoundV c v i) →
        Subvector.upperBoundV c v i = v.endPos c) := by
  refine ⟨⟨rfl, rfl⟩, ?_, ?_, ?_, ?_⟩
  · intro hnm
    have h := findPos_eq_length_of_not_mem hnm
    simp [Subvector.findV, h]
  · intro e he
    have hlt : findPos c.entries (v.start + i) < c.entries.length :=
      List.getElem?_eq_some.mp he |>.1
    have hidx : e.1 = v.start + i := findPos_getElem he
    exact ⟨by simp [Subvector.findV, Nat.ne_of_lt hlt], hidx, by omega, by omega⟩
  · intro hout
    exact lbPos_collapse hc.1 (by omega) hout
  · intro hout
    exact ubPos_collapse hc.1 (show v.start + i < v.start + v.size by omega) hout

/-- C5 witness: on the concrete container with view (3,4), local index 3
(global 6): `lowerBound` lands on global index 7, outside the view, and
coincides with the view's end position; `find` misses and returns the view's
end. -/
theorem C5_lookup_delegation_clamp_witness :
    ex10.WF ∧ (3 : Nat) < 4 ∧
      ((Subvector.lowerBoundV ex10 ⟨3, 4⟩ 3 = lbPos ex10.entries (3 + 3)
          ∧ Subvector.upperBoundV ex10 ⟨3, 4⟩ 3 = ubPos ex10.entries (3 + 3))
        ∧ ((∀ e ∈ ex10.entries, e.1 ≠ 3 + 3) →
            Subvector.findV ex10 ⟨3, 4⟩ 3 = Subvector.endPos ex10 ⟨3, 4⟩)
        ∧ (∀ e, ex10.entries[findPos ex10.entries (3 + 3)]? = some e →
            Subvector.findV ex10 ⟨3, 4⟩ 3 = findPos ex10.entries (3 + 3)
              ∧ e.1 = 3 + 3
              ∧ (3 : Nat) ≤ e.1 ∧ e.1 < 3 + 4)
        ∧ (landsOutside ex10 ⟨3, 4⟩ (Subvector.lowerBoundV ex10 ⟨3, 4⟩ 3) →
            Subvector.lowerBoundV ex10 ⟨3, 4⟩ 3 = Subvector.endPos ex10 ⟨3, 4⟩)
        ∧ (landsOutside ex10 ⟨3, 4⟩ (Subvector.upperBoundV ex10 ⟨3, 4⟩ 3) →
            Subvector.upperBoundV ex10 ⟨3, 4⟩ 3 = Subvector.endPos ex10 ⟨3, 4⟩)) :=
  ⟨by decide, by decide,
    C5_lookup_delegation_clamp ex10 (by decide) ⟨3, 4⟩ 3 (by decide)⟩

/-! ### Assignment machinery -/

/-- Modelled from the spec: the container's `insert( index, value )` — the new
entry is placed at its sorted position; inserting at an already-stored index
is an error (the container throws, state unchanged). -/
def insertE {α : Type} : List (Nat × α) → Nat → α → Option (List (Nat × α))
  | [], i, val => some [(i, val)]
  | e :: es, i, val =>
    if i < e.1 then some ((i, val) :: e :: es)
    else if i = e.1 then none
    else (insertE es i val).map (fun l => e :: l)

/-- Container-level insert. -/
def SVec.insert {α : Type} (c : SVec α) (i : Nat) (val : α) : Option (SVec α) :=
  (insertE c.entries i val).map (fun l => ⟨c.len, l⟩)

/-- `append( index, value, check )` of the view:
`if( !check || !isDefault( value ) ) vector_.insert( start_ + index, value );`. -/
def Subvector.append {α : Type} [Zero α] [DecidableEq α]
    (c : SVec α) (v : Subvector) (i : Nat) (val : α) (check : Bool) :
    Option (SVec α) :=
  if check = false ∨ val ≠ 0 then c.insert (v.start + i) val else some c

/-- `assign( const SparseVector& rhs )`: appends every stored entry of `rhs`
at its local index, in order, without the default-value check. -/
def Subvector.assignSparse {α : Type} [Zero α] [DecidableEq α]
    (c : SVec α) (v : Subvector) (r : SVec α) : Option (SVec α) :=
  r.entries.foldlM (fun acc e => Subvector.append acc v e.1 e.2 false) c

/-- `assign( const DenseVector& rhs )`: appends `( i, rhs[i], check = true )`
for `i = 0, …, size()-1`, skipping default (zero) values. -/
def Subvector.assignDense {α : Type} [Zero α] [DecidableEq α]
    (c : SVec α) (v : Subvector) (x : List α) : Option (SVec α) :=
  x.enum.foldlM (fun acc e => Subvector.append acc v e.1 e.2 true) c

/-- `operator=( const Vector& rhs )` for a sparse right-hand side that does
not alias the backing container: size mismatch throws
`std::invalid_argument`; otherwise `reset()` then `assign( *this, ~rhs )`.
(A duplicate-index failure of the container's insert — impossible on this
path — would surface as the container's error.) -/
def Subvector.assignOpSparse {α : Type} [Zero α] [DecidableEq α]
    (c : SVec α) (v : Subvector) (r : SVec α) : Except String (SVec α) :=
  if r.len ≠ v.size then Except.error "Vector sizes do not match"
  else
    match Subvector.assignSparse (Subvector.reset c v) v r with
    | some c2 => Except.ok c2
    | none => Except.error "Duplicate element detected"

/-- `operator=( const Vector& rhs )` for a dense right-hand side that does not
alias the backing container. -/
def Subvector.assignOpDense {α : Type} [Zero α] [DecidableEq α]
    (c : SVec α) (v : Subvector) (x : List α) : Except String (SVec α) :=
  if x.length ≠ v.size then Except.error "Vector sizes do not match"
  else
    match Subvector.assignDense (Subvector.reset c v) v x with
    | some c2 => Except.ok c2
    | none => Except.error "Duplicate element detected"

/-- `operator=( const SparseSubvector& rhs )` for a right-hand side view of
the same backing container (`&vector_ == &rhs.vector_`): the self-assignment
shortcut compares only the starts and returns unchanged; then sizes are
checked; then, since `rhs.canAlias( &vector_ )` holds, `rhs` is materialized
into the temporary `ResultType tmp( rhs )` before `reset()` and
`assign( *this, tmp )`. -/
def Subvector.copyAssignSame {α : Type} [Zero α] [DecidableEq α]
    (c : SVec α) (v rhs : Subvector) : Except String (SVec α) :=
  if v.start = rhs.start then Except.ok c
  else if v.size ≠ rhs.size then Except.error "Vector sizes do not match"
  else
    match Subvector.assignSparse (Subvector.reset c v) v
        ⟨rhs.size, Subvector.toList c rhs⟩ with
    | some c2 => Except.ok c2
    | none => Except.error "Duplicate element detected"

/-! ### Normal form of the assign loops -/

theorem insertE_split {α : Type} (pre post : List (Nat × α)) (i : Nat) (val : α)
    (hpre : ∀ e ∈ pre, e.1 < i) (hpost : ∀ e ∈ post, i < e.1) :
    insertE (pre ++ post) i val = some (pre ++ (i, val) :: post) := by
  induction pre with
  | nil =>
    cases post with
    | nil => rfl
    | cons b bs =>
      have hb : i < b.1 := hpost b (List.mem_cons_self b bs)
      simp [insertE, hb]
  | cons a as ih =>
    have ha : a.1 < i := hpre a (List.mem_cons_self a as)
    have h1 : ¬ i < a.1 := by omega
    have h2 : ¬ i = a.1 := by omega
    simp [insertE, h1, h2, ih (fun e he => hpre e (List.mem_cons_of_mem a he))]

theorem assignSparse_norm {α : Type} [Zero α] [DecidableEq α] (v : Subvector) :
    ∀ (rs : List (Nat × α)) (rlen len : Nat) (pre post : List (Nat × α)),
      List.Pairwise (fun a b : Nat × α => a.1 < b.1) rs →
      (∀ e ∈ pre, ∀ r ∈ rs, e.1 < v.start + r.1) →
      (∀ e ∈ post, ∀ r ∈ rs, v.start + r.1 < e.1) →
      Subvector.assignSparse ⟨len, pre ++ post⟩ v ⟨rlen, rs⟩
        = some ⟨len, pre ++ rs.map (fun r => (v.start + r.1, r.2)) ++ post⟩ := by
  intro rs
  induction rs with
  | nil =>
    intro rlen len pre post _ _ _
    simp [Subvector.assignSparse]
  | cons r rs ih =>
    intro rlen len pre post hsort hpre hpost
    rcases List.pairwise_cons.mp hsort with ⟨hr, hsort'⟩
    have hstep : Subvector.append (⟨len, pre ++ post⟩ : SVec α) v r.1 r.2 false
        = some ⟨len, pre ++ (v.start + r.1, r.2) :: post⟩ := by
      have hins := insertE_split pre post (v.start + r.1) r.2
        (fun e he => hpre e he r (List.mem_cons_self r rs))
        (fun e he => hpost e he r (List.mem_cons_self r rs))
      simp [Subvector.append, SVec.insert, hins]
    have hrec := ih rlen len (pre ++ [(v.start + r.1, r.2)]) post hsort'
      (by
        intro e he r' hr'
        rcases List.mem_append.mp he with he | he
        · exact hpre e he r' (List.mem_cons_of_mem r hr')
        · rcases List.mem_singleton.mp he with rfl
          have : r.1 < r'.1 := hr r' hr'
          simp only []
          omega)
      (fun e he r' hr' => hpost e he r' (List.mem_cons_of_mem r hr'))
    show (Subvector.append (⟨len, pre ++ post⟩ : SVec α) v r.1 r.2 false).bind
        (fun acc => Subvector.assignSparse acc v ⟨rlen, rs⟩)
      = _
    rw [hstep]
    show Subvector.assignSparse ⟨len, pre ++ (v.start + r.1, r.2) :: post⟩ v ⟨rlen, rs⟩
      = _
    have hpp : pre ++ (v.start + r.1, r.2) :: post
        = (pre ++ [(v.start + r.1, r.2)]) ++ post := by
      simp
    rw [hpp, hrec]
    simp

theorem assignDense_norm_aux {α : Type} [Zero α] [DecidableEq α] (v : Subvector) :
    ∀ (x : List α) (k len : Nat) (pre post : List (Nat × α)),
      (∀ e ∈ pre, e.1 < v.start + k) →
      (∀ e ∈ post, v.start + k + x.length ≤ e.1) →
      (x.enumFrom k).foldlM (fun acc e => Subvector.append acc v e.1 e.2 true)
          (⟨len, pre ++ post⟩ : SVec α)
        = some ⟨len,
            pre ++ ((x.enumFrom k).filter (fun e => decide (e.2 ≠ 0))).map
                (fun e => (v.start + e.1, e.2)) ++ post⟩ := by
  intro x
  induction x with
  | nil =>
    intro k len pre post _ _
    simp [List.enumFrom]
  | cons a x ih =>
    intro k len pre post hpre hpost
    have hpost' : ∀ e ∈ post, v.start + k < e.1 := by
      intro e he
      have := hpost e he
      simp only [List.length_cons] at this
      omega
    by_cases ha : a = 0
    · have hstep : Subvector.append (⟨len, pre ++ post⟩ : SVec α) v k a true
          = some ⟨len, pre ++ post⟩ := by
        simp [Subvector.append, ha]
      have hrec := ih (k + 1) len pre post
        (by intro e he; have := hpre e he; omega)
        (by intro e he; have := hpost e he; simp only [List.length_cons] at this; omega)
      show (Subvector.append (⟨len, pre ++ post⟩ : SVec α) v k a true).bind
          (fun acc =>
            (x.enumFrom (k + 1)).foldlM
              (fun acc e => Subvector.append acc v e.1 e.2 true) acc)
        = _
      rw [hstep]
      show (x.enumFrom (k + 1)).foldlM
          (fun acc e => Subvector.append acc v e.1 e.2 true)
          (⟨len, pre ++ post⟩ : SVec α)
        = _
      rw [hrec]
      simp [List.enumFrom, List.filter_cons, ha]
    · have hstep : Subvector.append (⟨len, pre ++ post⟩ : SVec α) v k a true
          = some ⟨len, (pre ++ [(v.start + k, a)]) ++ post⟩ := by
        have hins := insertE_split pre post (v.start + k) a
          (fun e he => hpre e he) (fun e he => hpost' e he)
        simp [Subvector.append, SVec.insert, ha, hins]
      have hrec := ih (k + 1) len (pre ++ [(v.start + k, a)]) post
        (by
          intro e he
          rcases List.mem_append.mp he with he | he
          · have := hpre e he; omega
          · rcases List.mem_singleton.mp he with rfl
            simp only []
            omega)
        (by intro e he; have := hpost e he; simp only [List.length_cons] at this; omega)
      show (Subvector.append (⟨len, pre ++ post⟩ : SVec α) v k a true).bind
          (fun acc =>
            (x.enumFrom (k + 1)).foldlM
              (fun acc e => Subvector.append acc v e.1 e.2 true) acc)
        = _
      rw [hstep]
      show (x.enumFrom (k + 1)).foldlM
          (fun acc e => Subvector.append acc v e.1 e.2 true)
          (⟨len, (pre ++ [(v.start + k, a)]) ++ post⟩ : SVec α)
        = _
      rw [hrec]
      simp [List.enumFrom, List.filter_cons, ha]

/-! ### Reading entries back (`find?` over the normal form) -/

theorem find?_append_of_none {α : Type} {l1 : List α} (l2 : List α) {p : α → Bool}
    (h : ∀ e ∈ l1, p e = false) : (l1 ++ l2).find? p = l2.find? p := by
  induction l1 with
  | nil => rfl
  | cons a as ih =>
    have ha := h a (List.mem_cons_self a as)
    rw [List.cons_append, List.find?_cons_of_neg _ (by simp [ha])]
    exact ih fun e he => h e (List.mem_cons_of_mem a he)

theorem find?_append_of_some {α : Type} {l1 : List α} (l2 : List α) {p : α → Bool}
    {e : α} (h : l1.find? p = some e) : (l1 ++ l2).find? p = some e := by
  induction l1 with
  | nil => simp at h
  | cons a as ih =>
    by_cases ha : p a
    · rw [List.find?_cons_of_pos _ ha] at h
      rw [List.cons_append, List.find?_cons_of_pos _ ha]
      exact h
    · rw [List.find?_cons_of_neg _ ha] at h
      rw [List.cons_append, List.find?_cons_of_neg _ ha]
      exact ih h

theorem find?_map_shift {α : Type} (s i : Nat) (rs : List (Nat × α)) :
    (rs.map (fun r => (s + r.1, r.2))).find? (fun e => e.1 == s + i)
      = (rs.find? (fun r => r.1 == i)).map (fun r => (s + r.1, r.2)) := by
  induction rs with
  | nil => rfl
  | cons r rs ih =>
    by_cases h : r.1 = i
    · rw [List.map_cons,
        List.find?_cons_of_pos _ (by simp [h]),
        List.find?_cons_of_pos _ (by simp [h])]
      rfl
    · rw [List.map_cons,
        List.find?_cons_of_neg _ (by simp; omega),
        List.find?_cons_of_neg _ (by simp [h])]
      exact ih

theorem atIdx_norm {α : Type} [Zero α] (len : Nat)
    (pre mid post : List (Nat × α)) (g : Nat)
    (hpre : ∀ e ∈ pre, e.1 ≠ g)
    (hpost : ∀ e ∈ post, e.1 ≠ g) :
    SVec.atIdx ⟨len, pre ++ mid ++ post⟩ g
      = ((mid.find? (fun e => e.1 == g)).map Prod.snd).getD 0 := by
  unfold SVec.atIdx
  have hl : (SVec.mk len (pre ++ mid ++ post)).entries = pre ++ mid ++ post := rfl
  rw [hl, List.append_assoc,
    find?_append_of_none (mid ++ post) (fun e he => by simp [hpre e he])]
  cases hm : mid.find? (fun e => e.1 == g) with
  | some e =>
    rw [find?_append_of_some post hm]
  | none =>
    rw [find?_append_of_none post
        (fun e he => by
          have := List.find?_eq_none.mp hm e he
          simpa using this),
      List.find?_eq_none.mpr (fun e he => by simp [hpost e he])]

theorem find?_filter_enumFrom_lt {α : Type} [Zero α] [DecidableEq α] :
    ∀ (x : List α) (k t : Nat), t < k →
      ((x.enumFrom k).filter (fun e => decide (e.2 ≠ 0))).find?
          (fun e => e.1 == t) = none := by
  intro x
  induction x with
  | nil =>
    intro k t _
    rfl
  | cons a x ih =>
    intro k t ht
    simp only [List.enumFrom, List.filter_cons]
    by_cases ha : a = 0
    · rw [if_neg (by simp [ha])]
      exact ih (k + 1) t (by omega)
    · rw [if_pos (by simp [ha]),
        List.find?_cons_of_neg _ (by simp only [beq_iff_eq]; omega)]
      exact ih (k + 1) t (by omega)

theorem find?_filter_enumFrom {α : Type} [Zero α] [DecidableEq α] :
    ∀ (x : List α) (k t : Nat),
      ((x.enumFrom k).filter (fun e => decide (e.2 ≠ 0))).find?
          (fun e => e.1 == k + t)
        = x[t]?.bind (fun a => if a = 0 then none else some (k + t, a)) := by
  intro x
  induction x with
  | nil =>
    intro k t
    simp [List.enumFrom]
  | cons a x ih =>
    intro k t
    simp only [List.enumFrom, List.filter_cons]
    cases t with
    | zero =>
      by_cases ha : a = 0
      · rw [if_neg (by simp [ha]),
          find?_filter_enumFrom_lt x (k + 1) (k + 0) (by omega)]
        simp [ha]
      · rw [if_pos (by simp [ha]),
          List.find?_cons_of_pos _ (by simp)]
        simp [ha]
    | succ u =>
      have hkt : k + (u + 1) = (k + 1) + u := by omega
      by_cases ha : a = 0
      · rw [if_neg (by simp [ha]), hkt, ih (k + 1) u]
        simp
      · rw [if_pos (by simp [ha]),
          List.find?_cons_of_neg _ (by simp only [beq_iff_eq]; omega),
          hkt, ih (k + 1) u]
        simp

/-- C2: assigning a dense or sparse vector of matching size into the view via
`operator=` succeeds and reading the view elementwise afterwards reproduces
the right-hand side exactly; and copy assignment from a subvector of the same
backing container (the aliasing case, materialized into a temporary first)
produces exactly the result of assigning the pre-materialized copy. -/
theorem C2_assignment_roundtrip (c : SVec Int) (hc : c.WF) (v : Subvector)
    (_hv : v.start + v.size ≤ c.len) :
    (∀ x : List Int, x.length = v.size →
      ∃ c2, Subvector.assignOpDense c v x = Except.ok c2
        ∧ ∀ i < v.size, c2.atIdx (v.start + i) = x.getD i 0)
    ∧ (∀ r : SVec Int, r.WF → r.len = v.size →
      ∃ c2, Subvector.assignOpSparse c v r = Except.ok c2
        ∧ ∀ i < v.size, c2.atIdx (v.start + i) = r.atIdx i)
    ∧ (∀ rhs : Subvector, v.size = rhs.size →
        Subvector.copyAssignSame c v rhs
          = Subvector.assignOpSparse c v ⟨rhs.size, Subvector.toList c rhs⟩) := by
  have hpre_lt : ∀ e ∈ c.entries.take (lbPos c.entries v.start), e.1 < v.start :=
    fun e he => mem_take_lbPos he
  have hpost_ge : ∀ e ∈ c.entries.drop (lbPos c.entries (v.start + v.size)),
      v.start + v.size ≤ e.1 :=
    fun e he => mem_drop_lbPos hc.1 he
  refine ⟨?_, ?_, ?_⟩
  · -- dense round trip
    intro x hx
    have hass : Subvector.assignDense (Subvector.reset c v) v x
        = some ⟨c.len,
            c.entries.take (lbPos c.entries v.start)
              ++ ((x.enumFrom 0).filter (fun e => decide (e.2 ≠ 0))).map
                  (fun e => (v.start + e.1, e.2))
              ++ c.entries.drop (lbPos c.entries (v.start + v.size))⟩ := by
      exact assignDense_norm_aux v x 0 c.len _ _
        (fun e he => by have := hpre_lt e he; omega)
        (fun e he => by have := hpost_ge e he; omega)
    have hok : Subvector.assignOpDense c v x
        = Except.ok ⟨c.len,
            c.entries.take (lbPos c.entries v.start)
              ++ ((x.enumFrom 0).filter (fun e => decide (e.2 ≠ 0))).map
                  (fun e => (v.start + e.1, e.2))
              ++ c.entries.drop (lbPos c.entries (v.start + v.size))⟩ := by
      unfold Subvector.assignOpDense
      rw [if_neg (by omega), hass]
    refine ⟨_, hok, ?_⟩
    intro i hi
    rw [atIdx_norm c.len _ _ _ (v.start + i)
          (fun e he => by have := hpre_lt e he; omega)
          (fun e he => by have := hpost_ge e he; omega),
        find?_map_shift v.start i _]
    have hkt : (0 : Nat) + i = i := by omega
    have hfe := find?_filter_enumFrom x 0 i
    rw [hkt] at hfe
    rw [hfe]
    have hxi := List.getElem?_eq_getElem (show i < x.length by omega)
    rw [hxi]
    by_cases hz : x[i] = 0
    · simp [hz, List.getD_eq_getElem?_getD, hxi]
    · simp [hz, List.getD_eq_getElem?_getD, hxi]
  · -- sparse round trip
    intro r hr hrlen
    have hass : Subvector.assignSparse (Subvector.reset c v) v r
        = some ⟨c.len,
            c.entries.take (lbPos c.entries v.start)
              ++ r.entries.map (fun e => (v.start + e.1, e.2))
              ++ c.entries.drop (lbPos c.entries (v.start + v.size))⟩ := by
      exact assignSparse_norm v r.entries r.len c.len _ _ hr.1
        (fun e he rr _ => by have := hpre_lt e he; omega)
        (fun e he rr hrr => by
          have h1 := hpost_ge e he
          have h2 := hr.2 rr hrr
          omega)
    have hok : Subvector.assignOpSparse c v r
        = Except.ok ⟨c.len,
            c.entries.take (lbPos c.entries v.start)
              ++ r.entries.map (fun e => (v.start + e.1, e.2))
              ++ c.entries.drop (lbPos c.entries (v.start + v.size))⟩ := by
      unfold Subvector.assignOpSparse
      rw [if_neg (by omega), hass]
    refine ⟨_, hok, ?_⟩
    intro i hi
    rw [atIdx_norm c.len _ _ _ (v.start + i)
        (fun e he => by have := hpre_lt e he; omega)
        (fun e he => by have := hpost_ge e he; omega),
      find?_map_shift v.start i _]
    unfold SVec.atIdx
    cases ho : r.entries.find? (fun e => e.1 == i) with
    | none => simp [ho]
    | some e => simp [ho]
  · -- copy assignment from an aliasing subvector
    intro rhs hsz
    by_cases hstart : v.start = rhs.start
    · obtain rfl : v = rhs := by
        cases v; cases rhs
        simp only [Subvector.mk.injEq]
        exact ⟨hstart, hsz⟩
      have hTL := toList_eq c hc v
      have hass : Subvector.assignSparse (Subvector.reset c v) v
          ⟨v.size, Subvector.toList c v⟩ = some c := by
        have hnorm := assignSparse_norm v (Subvector.toList c v) v.size c.len
          (c.entries.take (lbPos c.entries v.start))
          (c.entries.drop (lbPos c.entries (v.start + v.size)))
          (toList_sorted c hc v)
          (fun e he rr _ => by have := hpre_lt e he; omega)
          (fun e he rr hrr => by
            have h1 := hpost_ge e he
            have h2 : rr.1 < v.size := by
              rw [hTL] at hrr
              rcases List.mem_map.mp hrr with ⟨e0, he0, rfl⟩
              have := List.of_mem_filter he0
              simp only [decide_eq_true_eq] at this
              omega
            omega)
        show Subvector.assignSparse
            (⟨c.len,
              c.entries.take (lbPos c.entries v.start)
                ++ c.entries.drop (lbPos c.entries (v.start + v.size))⟩ : SVec Int)
            v ⟨v.size, Subvector.toList c v⟩ = some c
        rw [hnorm]
        congr 1
        have hmapmap : (Subvector.toList c v).map (fun e => (v.start + e.1, e.2))
            = c.entries.filter
                (fun e => decide (v.start ≤ e.1 ∧ e.1 < v.start + v.size)) := by
          rw [hTL, List.map_map]
          refine ((List.map_congr_left ?_).trans (List.map_id _))
          intro e he
          have := List.of_mem_filter he
          simp only [decide_eq_true_eq] at this
          simp only [Function.comp, id_eq]
          rw [show v.start + (e.1 - v.start) = e.1 by omega]
        rw [hmapmap,
          ← slice_eq_filter hc.1 (Nat.le_add_right v.start v.size)]
        show (⟨c.len,
            c.entries.take (lbPos c.entries v.start)
              ++ (c.entries.drop (lbPos c.entries v.start)).take
                  (lbPos c.entries (v.start + v.size) - lbPos c.entries v.start)
              ++ c.entries.drop (lbPos c.entries (v.start + v.size))⟩ : SVec Int)
          = (⟨c.len, c.entries⟩ : SVec Int)
        congr 1
        conv_rhs => rw [entries_decomp c.entries (Nat.le_add_right v.start v.size)]
        rw [List.append_assoc]
      have hlhs : Subvector.copyAssignSame c v v = Except.ok c := by
        unfold Subvector.copyAssignSame
        rw [if_pos rfl]
      rw [hlhs]
      unfold Subvector.assignOpSparse
      rw [if_neg (by simp), hass]
    · unfold Subvector.copyAssignSame Subvector.assignOpSparse
      rw [if_neg hstart, if_neg (by omega), if_neg (by simp [hsz])]

/-- C2 witness: the concrete container, view (3,4), a dense and a sparse
right-hand side. -/
theorem C2_assignment_roundtrip_witness :
    ex10.WF ∧ 3 + 4 ≤ ex10.len ∧
      ((∀ x : List Int, x.length = (4 : Nat) →
        ∃ c2, Subvector.assignOpDense ex10 ⟨3, 4⟩ x = Except.ok c2
          ∧ ∀ i < (4 : Nat), c2.atIdx (3 + i) = x.getD i 0)
      ∧ (∀ r : SVec Int, r.WF → r.len = (4 : Nat) →
        ∃ c2, Subvector.assignOpSparse ex10 ⟨3, 4⟩ r = Except.ok c2
          ∧ ∀ i < (4 : Nat), c2.atIdx (3 + i) = r.atIdx i)
      ∧ (∀ rhs : Subvector, (4 : Nat) = rhs.size →
          Subvector.copyAssignSame ex10 ⟨3, 4⟩ rhs
            = Subvector.assignOpSparse ex10 ⟨3, 4⟩
                ⟨rhs.size, Subvector.toList ex10 rhs⟩)) :=
  ⟨by decide, by decide,
    C2_assignment_roundtrip ex10 (by decide) ⟨3, 4⟩ (by decide)⟩

/-- C4: evaluation at the failing input.  The views (0,2) and (0,3) of the
same container have different sizes, yet `operator=` returns successfully
without touching the container: the self-assignment shortcut
`&vector_ == &rhs.vector_ && start_ == rhs.start_` compares only the starts,
so the documented size-mismatch exception is never reached. -/
theorem C4_size_mismatch_shortcut_evaluation :
    (Subvector.mk 0 2).size ≠ (Subvector.mk 0 3).size
      ∧ Subvector.copyAssignSame ex10 ⟨0, 2⟩ ⟨0, 3⟩ = Except.ok ex10 := by
  constructor
  · decide
  · rfl

/-! ### Expression restructuring (`sub` on unevaluated expression nodes) -/

/-- Vector expression trees: the closed set of node kinds for which the
source provides restructuring `sub` overloads — concrete sparse leaves,
subvector views, vector addition, subtraction, elementwise multiplication,
scalar multiplication and division, absolute value, evaluation and
transposition. -/
inductive VExpr : Type
  | leaf (c : SVec Int)
  | view (c : SVec Int) (start n : Nat)
  | vadd (a b : VExpr)
  | vsub (a b : VExpr)
  | vmul (a b : VExpr)
  | vsmul (a : VExpr) (k : Int)
  | vsdiv (a : VExpr) (k : Int)
  | vabs (a : VExpr)
  | veval (a : VExpr)
  | vtrans (a : VExpr)
deriving DecidableEq

/-- Elementwise evaluation of an expression at index `i`.  A view reads the
backing container at `start + i`; `eval` and `trans` leave element values
unchanged; scalar division is C++ truncating integer division. -/
def VExpr.den : VExpr → Nat → Int
  | .leaf c, i => c.atIdx i
  | .view c s _, i => c.atIdx (s + i)
  | .vadd a b, i => a.den i + b.den i
  | .vsub a b, i => a.den i - b.den i
  | .vmul a b, i => a.den i * b.den i
  | .vsmul a k, i => a.den i * k
  | .vsdiv a k, i => (a.den i).tdiv k
  | .vabs a, i => |a.den i|
  | .veval a, i => a.den i
  | .vtrans a, i => a.den i

/-- The free function `sub( sv, start, n )` together with its restructuring
overloads: on a concrete container it builds a view; on each expression node
it is pushed down algebraically exactly as the `EnableIf<IsVecVecAddExpr>`
(etc.) overloads prescribe; on a view it nests the offsets (the generic
overload building a view of a view). -/
def subE : VExpr → Nat → Nat → VExpr
  | .leaf c, s, n => .view c s n
  | .view c s0 _, s, n => .view c (s0 + s) n
  | .vadd a b, s, n => .vadd (subE a s n) (subE b s n)
  | .vsub a b, s, n => .vsub (subE a s n) (subE b s n)
  | .vmul a b, s, n => .vmul (subE a s n) (subE b s n)
  | .vsmul a k, s, n => .vsmul (subE a s n) k
  | .vsdiv a k, s, n => .vsdiv (subE a s n) k
  | .vabs a, s, n => .vabs (subE a s n)
  | .veval a, s, n => .veval (subE a s n)
  | .vtrans a, s, n => .vtrans (subE a s n)

/-- C3: `sub` rewrites each unevaluated node to the node applied to
subvectors of its operands, and the rewritten expression evaluates
elementwise to exactly the values of eagerly evaluating the expression and
then slicing at offset `start`. -/
theorem C3_sub_pushdown (a b : VExpr) (k : Int) (e : VExpr) (s n i : Nat)
    (_hi : i < n) :
    (subE (.vadd a b) s n = .vadd (subE a s n) (subE b s n)
      ∧ subE (.vsub a b) s n = .vsub (subE a s n) (subE b s n)
      ∧ subE (.vmul a b) s n = .vmul (subE a s n) (subE b s n)
      ∧ subE (.vsmul a k) s n = .vsmul (subE a s n) k
      ∧ subE (.vsdiv a k) s n = .vsdiv (subE a s n) k
      ∧ subE (.vabs a) s n = .vabs (subE a s n)
      ∧ subE (.veval a) s n = .veval (subE a s n)
      ∧ subE (.vtrans a) s n = .vtrans (subE a s n))
    ∧ (subE e s n).den i = e.den (s + i) := by
  refine ⟨⟨rfl, rfl, rfl, rfl, rfl, rfl, rfl, rfl⟩, ?_⟩
  induction e with
  | leaf c => rfl
  | view c s0 n0 =>
    show c.atIdx (s0 + s + i) = c.atIdx (s0 + (s + i))
    rw [Nat.add_assoc]
  | vadd x y ihx ihy =>
    show (subE x s n).den i + (subE y s n).den i = x.den (s + i) + y.den (s + i)
    rw [ihx, ihy]
  | vsub x y ihx ihy =>
    show (subE x s n).den i - (subE y s n).den i = x.den (s + i) - y.den (s + i)
    rw [ihx, ihy]
  | vmul x y ihx ihy =>
    show (subE x s n).den i * (subE y s n).den i = x.den (s + i) * y.den (s + i)
    rw [ihx, ihy]
  | vsmul x k0 ihx =>
    show (subE x s n).den i * k0 = x.den (s + i) * k0
    rw [ihx]
  | vsdiv x k0 ihx =>
    show ((subE x s n).den i).tdiv k0 = (x.den (s + i)).tdiv k0
    rw [ihx]
  | vabs x ihx =>
    show |(subE x s n).den i| = |x.den (s + i)|
    rw [ihx]
  | veval x ihx =>
    show (subE x s n).den i = x.den (s + i)
    exact ihx
  | vtrans x ihx =>
    show (subE x s n).den i = x.den (s + i)
    exact ihx

/-- C3 witness: `A + B` over two copies of the concrete container, sliced at
`start = 2`, `n = 3`, element `i = 1`. -/
theorem C3_sub_pushdown_witness :
    (1 : Nat) < 3 ∧
      ((subE (.vadd (.leaf ex10) (.leaf ex10)) 2 3
            = .vadd (subE (.leaf ex10) 2 3) (subE (.leaf ex10) 2 3)
        ∧ subE (.vsub (.leaf ex10) (.leaf ex10)) 2 3
            = .vsub (subE (.leaf ex10) 2 3) (subE (.leaf ex10) 2 3)
        ∧ subE (.vmul (.leaf ex10) (.leaf ex10)) 2 3
            = .vmul (subE (.leaf ex10) 2 3) (subE (.leaf ex10) 2 3)
        ∧ subE (.vsmul (.leaf ex10) 7) 2 3 = .vsmul (subE (.leaf ex10) 2 3) 7
        ∧ subE (.vsdiv (.leaf ex10) 7) 2 3 = .vsdiv (subE (.leaf ex10) 2 3) 7
        ∧ subE (.vabs (.leaf ex10)) 2 3 = .vabs (subE (.leaf ex10) 2 3)
        ∧ subE (.veval (.leaf ex10)) 2 3 = .veval (subE (.leaf ex10) 2 3)
        ∧ subE (.vtrans (.leaf ex10)) 2 3 = .vtrans (subE (.leaf ex10) 2 3))
      ∧ (subE (.vadd (.leaf ex10) (.leaf ex10)) 2 3).den 1
          = (VExpr.vadd (.leaf ex10) (.leaf ex10)).den (2 + 1)) :=
  ⟨by decide,
    C3_sub_pushdown (.leaf ex10) (.leaf ex10) 7
      (.vadd (.leaf ex10) (.leaf ex10)) 2 3 1 (by decide)⟩

end Blaze
